import Mathlib

/-!
Verification development for the `JPFMinimizeTurns` finder of PathFinding.js
(src/src/finders/JPFMinimizeTurns.js): a turn-minimizing, orthogonal-only
jump point search strategy.

The JavaScript source is shallowly embedded below.  Machine numbers used for
costs (`g`, `h`, `f`, weights, the turn penalty) are modelled as rationals;
coordinates are integers.  The recursive straight-line jump scan is embedded
with an explicit fuel parameter (`jumpAux`); the top-level `jump` supplies
`width + height + 1` fuel, which is proved sufficient for every call whose
origin differs from the scanned cell.

Pieces of the repository that the finder consumes but that are not part of
the given source file (the grid core, `Util.interpolate`, the base finder's
main loop) are modelled from the specification; each such definition carries
a doc comment starting with `Modelled from the spec:`.
-/

namespace JPF

abbrev Pt := Int × Int

/-- The grid collaborator: a `width × height` board of cells, each with a
static walkable flag and a terrain weight.  `walkable`/`weight` are queried
at in-bounds offsets only (see `Grid.isWalkableAt`). -/
structure Grid where
  width : Nat
  height : Nat
  walkable : Nat → Nat → Bool
  weight : Nat → Nat → ℚ

/-- `Grid.isWalkableAt(x, y)`: false for out-of-bounds coordinates, the
cell's walkable flag otherwise (spec section 6: the grid must return false,
not throw, outside its bounds). -/
def Grid.isWalkableAt (g : Grid) (x y : Int) : Bool :=
  decide (0 ≤ x) && decide (x < g.width) && decide (0 ≤ y) && decide (y < g.height) &&
    g.walkable x.toNat y.toNat

/-- Modelled from the spec: the terrain weight of the node at `(x, y)`
(spec section 3: weight is a multiplier, default 1; the grid core holding
node weights is outside the provided source). -/
def Grid.weightAt (g : Grid) (x y : Int) : ℚ :=
  if 0 ≤ x ∧ x < g.width ∧ 0 ≤ y ∧ y < g.height then g.weight x.toNat y.toNat else 1

/-- Modelled from the spec: `Util.interpolate(x0, y0, x1, y1)` — the
inclusive straight-line interpolation between two cells (spec section 4.4;
`core/Util.js` is outside the provided source).  The finder only ever
interpolates axis-aligned segments, on which Bresenham stepping is exactly
the arithmetic progression written here. -/
def interpolate (x0 y0 x1 y1 : Int) : List Pt :=
  let n : Nat := max (x1 - x0).natAbs (y1 - y0).natAbs
  let sx : Int := (x1 - x0).sign
  let sy : Int := (y1 - y0).sign
  (List.range (n + 1)).map (fun i : Nat => (x0 + sx * (i : Int), y0 + sy * (i : Int)))

/-- The blocked-line test of `_findSmoothJump`: some strictly-intermediate
cell of the interpolated line (indices `1 .. length - 2`) is unwalkable. -/
def lineBlocked (g : Grid) (line : List Pt) : Bool :=
  ((line.drop 1).dropLast).any (fun p => ! g.isWalkableAt p.1 p.2)

/-- One candidate distance of `_findSmoothJump`: the look-ahead endpoint
`(x + dx·d, y + dy·d)` succeeds when it is walkable and the interpolated
line to it is not blocked. -/
def smoothCandidate (g : Grid) (x y dx dy : Int) (d : Nat) : Option Pt :=
  let nx := x + dx * d
  let ny := y + dy * d
  if g.isWalkableAt nx ny && ! lineBlocked g (interpolate x y nx ny) then some (nx, ny)
  else none

/-- The descending retry loop of `_findSmoothJump`
(`for (dist = lookAheadDistance - 1; dist >= 1; dist--)`): tries the
distances `m, m-1, …, 1` in order. -/
def smoothLoop (g : Grid) (x y dx dy : Int) : Nat → Option Pt
  | 0 => none
  | Nat.succ d =>
    match smoothCandidate g x y dx dy (Nat.succ d) with
    | some p => some p
    | none => smoothLoop g x y dx dy d

/-- `JPFMinimizeTurns.prototype._findSmoothJump(x, y, dx, dy)`: rejects
diagonal directions defensively, then tries the full `lookAheadDistance`
and afterwards every shorter distance down to 1. -/
def findSmoothJump (g : Grid) (la : Nat) (x y dx dy : Int) : Option Pt :=
  if dx ≠ 0 ∧ dy ≠ 0 then none
  else
    match smoothCandidate g x y dx dy la with
    | some p => some p
    | none => smoothLoop g x y dx dy (la - 1)

/-- `JPFMinimizeTurns.prototype._jump(x, y, px, py)`, with an explicit fuel
parameter bounding the straight-line recursion.  The outer `Option` is
`none` exactly when the fuel runs out; `some r` means the JavaScript call
returns `r` (`none` standing for `null`).  The branch order follows the
source: walkability, goal test, defensive diagonal rejection, the
horizontal/vertical forced-neighbor tests, the optional look-ahead
shortcut, then the recursive step `_jump(x + dx, y + dy, x, y)`.
(`trackJumpRecursion` only marks nodes for debugging and does not affect
the result, so it is not modelled.) -/
def jumpAux (g : Grid) (goal : Pt) (mt : Bool) (la : Nat) :
    Nat → Int → Int → Int → Int → Option (Option Pt)
  | 0, _, _, _, _ => none
  | Nat.succ fuel, x, y, px, py =>
    let dx := x - px
    let dy := y - py
    if ¬ g.isWalkableAt x y then some none
    else if (x, y) = goal then some (some (x, y))
    else if dx ≠ 0 ∧ dy ≠ 0 then some none
    else if dx ≠ 0 ∧
        ((g.isWalkableAt (x + dx) (y + 1) ∧ ¬ g.isWalkableAt x (y + 1)) ∨
         (g.isWalkableAt (x + dx) (y - 1) ∧ ¬ g.isWalkableAt x (y - 1))) then
      some (some (x, y))
    else if dx = 0 ∧ dy ≠ 0 ∧
        ((g.isWalkableAt (x + 1) (y + dy) ∧ ¬ g.isWalkableAt (x + 1) y) ∨
         (g.isWalkableAt (x - 1) (y + dy) ∧ ¬ g.isWalkableAt (x - 1) y)) then
      some (some (x, y))
    else
      match mt, findSmoothJump g la x y dx dy with
      | true, some p => some (some p)
      | true, none => jumpAux g goal mt la fuel (x + dx) (y + dy) x y
      | false, _ => jumpAux g goal mt la fuel (x + dx) (y + dy) x y

/-- Fuel supplied to the jump scan: enough for any straight walk across the
grid (proved sufficient whenever the scanned cell differs from the origin). -/
def jumpFuel (g : Grid) : Nat := g.width + g.height + 1

/-- The jump scan as called by the finder: `_jump(x, y, px, py)`. -/
def jump (g : Grid) (goal : Pt) (mt : Bool) (la : Nat) (x y px py : Int) : Option Pt :=
  (jumpAux g goal mt la (jumpFuel g) x y px py).getD none

/-- An obstacle-free grid of the given size, all weights 1. -/
def openGrid (w h : Nat) : Grid := ⟨w, h, fun _ _ => true, fun _ _ => 1⟩

/-- The Manhattan heuristic (the base finder's default), applied to the
absolute coordinate differences. -/
def manhattan : Nat → Nat → ℚ := fun a b => (a : ℚ) + (b : ℚ)

/-- Modelled from the spec: `Grid.getNeighbors(node, DiagonalMovement.Never)`
(spec sections 4.2 and 6; the grid core is outside the provided source) —
the orthogonal walkable neighbours of a cell, in the grid core's
up/right/down/left order. -/
def getNeighbors (g : Grid) (x y : Int) : List Pt :=
  (if g.isWalkableAt x (y - 1) then [(x, y - 1)] else []) ++
  (if g.isWalkableAt (x + 1) y then [(x + 1, y)] else []) ++
  (if g.isWalkableAt x (y + 1) then [(x, y + 1)] else []) ++
  (if g.isWalkableAt (x - 1) y then [(x - 1, y)] else [])

/-- The travel-direction normalisation of `_findNeighbors`:
`(x - px) / Math.max(Math.abs(x - px), 1)`. -/
def jsUnit (a : Int) : Int := a / (max (a.natAbs : Int) 1)

/-- `JPFMinimizeTurns.prototype._findSmoothNeighbors(node, dx, dy)`: the
extra perpendicular candidates probed when turn minimization is enabled.
A perpendicular cell is accepted when it is walkable and jumping from it
(with the current node as origin) finds a jump point. -/
def findSmoothNeighbors (g : Grid) (goal : Pt) (mt : Bool) (la : Nat)
    (x y dx dy : Int) : List Pt :=
  if dx ≠ 0 then
    (if g.isWalkableAt x (y + 1) && (jump g goal mt la x (y + 1) x y).isSome then
      [(x, y + 1)] else []) ++
    (if g.isWalkableAt x (y - 1) && (jump g goal mt la x (y - 1) x y).isSome then
      [(x, y - 1)] else [])
  else if dy ≠ 0 then
    (if g.isWalkableAt (x + 1) y && (jump g goal mt la (x + 1) y x y).isSome then
      [(x + 1, y)] else []) ++
    (if g.isWalkableAt (x - 1) y && (jump g goal mt la (x - 1) y x y).isSome then
      [(x - 1, y)] else [])
  else []

/-- `JPFMinimizeTurns.prototype._findNeighbors(node)`: full expansion for a
parentless node, directed pruning (the straight-ahead cell and the two
cells offset one unit perpendicular, in the direction of travel) otherwise,
plus the smooth perpendicular candidates when turn minimization is on. -/
def findNeighbors (g : Grid) (goal : Pt) (mt : Bool) (la : Nat)
    (x y : Int) (parent : Option Pt) : List Pt :=
  match parent with
  | none => getNeighbors g x y
  | some (px, py) =>
    let dx := jsUnit (x - px)
    let dy := jsUnit (y - py)
    (if dx ≠ 0 then
      (if g.isWalkableAt (x + dx) y then [(x + dx, y)] else []) ++
      (if g.isWalkableAt (x + dx) (y + 1) then [(x + dx, y + 1)] else []) ++
      (if g.isWalkableAt (x + dx) (y - 1) then [(x + dx, y - 1)] else [])
    else if dy ≠ 0 then
      (if g.isWalkableAt x (y + dy) then [(x, y + dy)] else []) ++
      (if g.isWalkableAt (x + 1) (y + dy) then [(x + 1, y + dy)] else []) ++
      (if g.isWalkableAt (x - 1) (y + dy) then [(x - 1, y + dy)] else [])
    else []) ++
    (if mt then findSmoothNeighbors g goal mt la x y dx dy else [])

/-- Per-node transient search fields (spec section 3). -/
structure NodeRec where
  g : ℚ
  h : ℚ
  f : ℚ
  opened : Bool
  closed : Bool
  parent : Option Pt
deriving DecidableEq

/-- Fresh search fields at query start. -/
def NodeRec.init : NodeRec := ⟨0, 0, 0, false, false, none⟩

/-- A call made to the OpenList collaborator during relaxation: an
insertion (`push`) or a priority-change notification (`update`). -/
inductive OpenEvent where
  | push (p : Pt)
  | update (p : Pt)
deriving DecidableEq

/-- The mutable state of one query: the per-node search fields, the open
list contents, and the log of OpenList calls. -/
structure SState where
  nodes : Pt → NodeRec
  openList : List Pt
  events : List OpenEvent

/-- The tentative cost `ng` computed by `_identifySuccessors` for relaxing
jump point `jp` from `node`: `node.g + d * jumpNode.weight` with `d` the
Manhattan distance, plus the turn penalty when turn minimization is on,
the node has a parent, and the previous edge's per-axis direction signs
differ from the new edge's. -/
def relaxNg (g : Grid) (mt : Bool) (tp : ℚ) (nodeRec : NodeRec) (node jp : Pt) : ℚ :=
  let d : ℚ := (((jp.1 - node.1).natAbs + (jp.2 - node.2).natAbs : Nat) : ℚ)
  let ng := nodeRec.g + d * g.weightAt jp.1 jp.2
  match mt, nodeRec.parent with
  | true, some pp =>
    if (node.1 - pp.1).sign ≠ (jp.1 - node.1).sign ∨
       (node.2 - pp.2).sign ≠ (jp.2 - node.2).sign then ng + tp else ng
  | true, none => ng
  | false, _ => ng

/-- The relaxation of one discovered jump point `jp` from `node`
(the body of the loop in `_identifySuccessors`, after `_jump` returned a
point): skip closed nodes; otherwise update `g/h/f/parent` when the node is
unopened or the tentative cost beats its recorded `g`, pushing it to the
open list if unopened and notifying the open list otherwise. -/
def relaxJump (g : Grid) (heur : Nat → Nat → ℚ) (mt : Bool) (tp : ℚ) (goal : Pt)
    (node : Pt) (st : SState) (jp : Pt) : SState :=
  let jumpNode := st.nodes jp
  if jumpNode.closed then st
  else
    let ng := relaxNg g mt tp (st.nodes node) node jp
    if jumpNode.opened = false ∨ ng < jumpNode.g then
      let h := if jumpNode.h = 0 then
          heur (jp.1 - goal.1).natAbs (jp.2 - goal.2).natAbs
        else jumpNode.h
      let updated : NodeRec :=
        { g := ng, h := h, f := ng + h, opened := true, closed := false,
          parent := some node }
      if jumpNode.opened = false then
        { nodes := Function.update st.nodes jp updated,
          openList := st.openList ++ [jp],
          events := st.events ++ [OpenEvent.push jp] }
      else
        { nodes := Function.update st.nodes jp updated,
          openList := st.openList,
          events := st.events ++ [OpenEvent.update jp] }
    else st

/-- `JPFMinimizeTurns.prototype._identifySuccessors(node)`: jump from every
pruned neighbor and relax each discovered jump point. -/
def identifySuccessors (g : Grid) (heur : Nat → Nat → ℚ) (mt : Bool) (tp : ℚ)
    (la : Nat) (goal : Pt) (st : SState) (node : Pt) : SState :=
  let nbrs := findNeighbors g goal mt la node.1 node.2 ((st.nodes node).parent)
  nbrs.foldl
    (fun st' nb =>
      match jump g goal mt la nb.1 nb.2 node.1 node.2 with
      | some jp => relaxJump g heur mt tp goal node st' jp
      | none => st') st

/-- Modelled from the spec: extraction of the minimum-`f` open node (spec
sections 4.1 and 6; the OpenList heap is outside the provided source).
Among equal `f` values the earliest-inserted node is taken; every theorem
evaluating a whole search below does so on runs whose open list never holds
two nodes, so no conclusion depends on this tie-breaking choice. -/
def popMin (nodes : Pt → NodeRec) : List Pt → Option (Pt × List Pt)
  | [] => none
  | p :: rest =>
    match popMin nodes rest with
    | none => some (p, [])
    | some (q, rest') =>
      if (nodes p).f ≤ (nodes q).f then some (p, rest) else some (q, p :: rest')

/-- Modelled from the spec: `Util.backtrace` — follow parent links from the
goal and return the start-to-goal order (spec section 4.1; `core/Util.js`
is outside the provided source).  Fuel bounds the walk. -/
def backtrace (nodes : Pt → NodeRec) : Nat → Pt → List Pt
  | 0, p => [p]
  | Nat.succ fuel, p =>
    match (nodes p).parent with
    | none => [p]
    | some q => backtrace nodes fuel q ++ [p]

/-- Modelled from the spec: the best-first main loop of the base finder
(spec section 4.1; `JumpPointFinderBase.findPath` is outside the provided
source).  Pop the minimum-`f` node, close it, return the backtraced path
when it is the goal, otherwise expand it through `_identifySuccessors`. -/
def searchLoop (g : Grid) (heur : Nat → Nat → ℚ) (mt : Bool) (tp : ℚ) (la : Nat)
    (goal : Pt) : Nat → SState → List Pt × SState
  | 0, st => ([], st)
  | Nat.succ fuel, st =>
    match popMin st.nodes st.openList with
    | none => ([], st)
    | some (p, rest) =>
      let st1 : SState :=
        { nodes := Function.update st.nodes p { st.nodes p with closed := true },
          openList := rest,
          events := st.events }
      if p = goal then (backtrace st1.nodes (g.width * g.height + 1) p, st1)
      else
        searchLoop g heur mt tp la goal fuel
          (identifySuccessors g heur mt tp la goal st1 p)

/-- Modelled from the spec: `search(start, goal)` (spec section 4.1) — the
start node gets `g = 0`, `f = 0`, is marked opened and pushed; the loop
then runs until the goal is popped or the open list empties.  The returned
pair is the path (empty when no path is found) together with the final
per-query state. -/
def findPath (g : Grid) (heur : Nat → Nat → ℚ) (mt : Bool) (tp : ℚ) (la : Nat)
    (start goal : Pt) : List Pt × SState :=
  let st0 : SState :=
    { nodes := Function.update (fun _ => NodeRec.init) start
        { NodeRec.init with opened := true },
      openList := [start],
      events := [OpenEvent.push start] }
  searchLoop g heur mt tp la goal (g.width * g.height + 2) st0

/-- A unit orthogonal direction: exactly one axis moves, by one cell. -/
def UnitDir (dx dy : Int) : Prop :=
  (dx, dy) = (1, 0) ∨ (dx, dy) = (-1, 0) ∨ (dx, dy) = (0, 1) ∨ (dx, dy) = (0, -1)

/-- The forced-neighbor condition of the spec, orthogonal-only form: for
horizontal travel, `(x+dx, y+1)` walkable while `(x, y+1)` is not, or
`(x+dx, y−1)` walkable while `(x, y−1)` is not; axes swapped for vertical. -/
def ForcedAt (g : Grid) (x y dx dy : Int) : Prop :=
  if dx ≠ 0 then
    (g.isWalkableAt (x + dx) (y + 1) ∧ ¬ g.isWalkableAt x (y + 1)) ∨
    (g.isWalkableAt (x + dx) (y - 1) ∧ ¬ g.isWalkableAt x (y - 1))
  else
    (g.isWalkableAt (x + 1) (y + dy) ∧ ¬ g.isWalkableAt (x + 1) y) ∨
    (g.isWalkableAt (x - 1) (y + dy) ∧ ¬ g.isWalkableAt (x - 1) y)

instance forcedAtDec (g : Grid) (x y dx dy : Int) : Decidable (ForcedAt g x y dx dy) :=
  inferInstanceAs (Decidable (if dx ≠ 0 then
    (g.isWalkableAt (x + dx) (y + 1) = true ∧ ¬ g.isWalkableAt x (y + 1) = true) ∨
    (g.isWalkableAt (x + dx) (y - 1) = true ∧ ¬ g.isWalkableAt x (y - 1) = true)
  else
    (g.isWalkableAt (x + 1) (y + dy) = true ∧ ¬ g.isWalkableAt (x + 1) y = true) ∨
    (g.isWalkableAt (x - 1) (y + dy) = true ∧ ¬ g.isWalkableAt (x - 1) y = true)))

/-- A clear look-ahead at distance `d` as the spec words it: the endpoint
`(x + dx·d, y + dy·d)` is walkable and so is every strictly-intermediate
cell of the straight line to it. -/
def specClear (g : Grid) (x y dx dy : Int) (d : Nat) : Prop :=
  g.isWalkableAt (x + dx * d) (y + dy * d) = true ∧
    ∀ j < d, 1 ≤ j → g.isWalkableAt (x + dx * j) (y + dy * j) = true

instance specClearDec (g : Grid) (x y dx dy : Int) (d : Nat) :
    Decidable (specClear g x y dx dy d) :=
  inferInstanceAs (Decidable (g.isWalkableAt (x + dx * d) (y + dy * d) = true ∧
    ∀ j < d, 1 ≤ j → g.isWalkableAt (x + dx * j) (y + dy * j) = true))

/-- Manhattan distance between two cells, `|jx − x| + |jy − y|`. -/
def manhattanDist (a b : Pt) : Nat := (a.1 - b.1).natAbs + (a.2 - b.2).natAbs

/-- The spec's turn-penalty trigger: turn minimization is on, the node has
a parent, and the per-axis sign of the previous edge's direction differs
from that of the new edge's direction on either axis. -/
def turnBetween (mt : Bool) (parent : Option Pt) (node jp : Pt) : Prop :=
  match parent with
  | none => False
  | some pp =>
    mt = true ∧
      ((node.1 - pp.1).sign ≠ (jp.1 - node.1).sign ∨
       (node.2 - pp.2).sign ≠ (jp.2 - node.2).sign)

instance turnBetweenDec (mt : Bool) (node jp : Pt) :
    (parent : Option Pt) → Decidable (turnBetween mt parent node jp)
  | none => isFalse (fun h => h)
  | some _ => inferInstanceAs (Decidable (_ ∧ (_ ∨ _)))

/-- A tiny concrete query state: only the start cell `(0, 0)` is opened.
Used to instantiate the relaxation theorems at concrete inputs. -/
def stW : SState :=
  { nodes := Function.update (fun _ => NodeRec.init) (0, 0)
      { NodeRec.init with opened := true },
    openList := [(0, 0)],
    events := [OpenEvent.push (0, 0)] }

lemma jsUnit_eq_sign (a : Int) : jsUnit a = a.sign := by
  rcases lt_trichotomy a 0 with h | h | h
  · have h1 : (a.natAbs : Int) = -a := by
      rw [Int.natCast_natAbs, abs_of_nonpos h.le]
    have h2 : max ((a.natAbs : Int)) 1 = -a := by
      rw [h1]; exact max_eq_left (by omega)
    rw [jsUnit, h2, show -a = -a by rfl, Int.ediv_neg, Int.ediv_self h.ne,
      Int.sign_eq_neg_one_iff_neg.mpr h]
  · subst h; rfl
  · have h1 : (a.natAbs : Int) = a := by
      rw [Int.natCast_natAbs, abs_of_nonneg h.le]
    have h2 : max ((a.natAbs : Int)) 1 = a := by
      rw [h1]; exact max_eq_left (by omega)
    rw [jsUnit, h2, Int.ediv_self h.ne', Int.sign_eq_one_iff_pos.mpr h]

lemma isWalkableAt_bounds {g : Grid} {x y : Int} (h : g.isWalkableAt x y = true) :
    0 ≤ x ∧ x < g.width ∧ 0 ≤ y ∧ y < g.height := by
  simp only [Grid.isWalkableAt, Bool.and_eq_true, decide_eq_true_eq] at h
  exact ⟨h.1.1.1.1, h.1.1.1.2, h.1.1.2, h.1.2⟩

lemma interpolate_unit {dx dy : Int} (hu : UnitDir dx dy) (x y : Int) (d : Nat) :
    interpolate x y (x + dx * d) (y + dy * d) =
      (List.range (d + 1)).map (fun i : Nat => (x + dx * (i : Int), y + dy * (i : Int))) := by
  have hx : x + dx * d - x = dx * d := by ring
  have hy : y + dy * d - y = dy * d := by ring
  rcases Nat.eq_zero_or_pos d with hd | hd
  · subst hd
    have hx0 : x + dx * ((0 : Nat) : Int) = x := by push_cast; ring
    have hy0 : y + dy * ((0 : Nat) : Int) = y := by push_cast; ring
    rw [hx0, hy0]
    simp only [interpolate, sub_self, Int.natAbs_zero, Nat.max_self, Nat.zero_add,
      List.range_succ, List.range_zero, List.nil_append, List.map_cons, List.map_nil,
      Int.sign_zero, Nat.cast_zero, mul_zero, add_zero]
  · rcases hu with h | h | h | h <;>
      obtain ⟨h1, h2⟩ := Prod.mk.injEq .. ▸ h <;> subst h1 <;> subst h2 <;>
      simp only [interpolate, hx, hy, one_mul, zero_mul, neg_mul] <;>
      simp [Int.natAbs_ofNat, Int.sign_natCast_of_ne_zero (by omega : d ≠ 0),
        Int.sign_neg, max_eq_left, Nat.zero_le]

lemma drop_dropLast_range_map {α : Type} (f : Nat → α) (e : Nat) :
    (((List.range (e + 2)).map f).drop 1).dropLast = (List.range e).map (fun i => f (i + 1)) := by
  rw [show e + 2 = (e + 1) + 1 by rfl, List.range_succ_eq_map]
  simp only [List.map_cons, List.drop_succ_cons, List.drop_zero, List.map_map]
  rw [List.range_succ, List.map_append]
  simp [Function.comp_def, Nat.succ_eq_add_one]

lemma lineBlocked_interp {dx dy : Int} (hu : UnitDir dx dy) (g : Grid) (x y : Int)
    (d : Nat) (hd : 1 ≤ d) :
    (lineBlocked g (interpolate x y (x + dx * d) (y + dy * d)) = false) ↔
      ∀ j < d, 1 ≤ j → g.isWalkableAt (x + dx * j) (y + dy * j) = true := by
  obtain ⟨e, rfl⟩ : ∃ e, d = e + 1 := ⟨d - 1, by omega⟩
  rw [interpolate_unit hu, lineBlocked, show e + 1 + 1 = e + 2 by rfl,
    drop_dropLast_range_map, List.any_eq_false]
  constructor
  · intro h j hj hj1
    obtain ⟨i, rfl⟩ : ∃ i, j = i + 1 := ⟨j - 1, by omega⟩
    have := h (x + dx * ((i : Int) + 1), y + dy * ((i : Int) + 1))
      (List.mem_map.mpr ⟨i, List.mem_range.mpr (by omega), by push_cast; ring_nf⟩)
    simp only [Bool.not_eq_true', Bool.not_eq_false] at this
    have hcast : ((i + 1 : Nat) : Int) = (i : Int) + 1 := by push_cast; ring
    rw [hcast]
    exact this
  · intro h p hp
    obtain ⟨i, hi, rfl⟩ := List.mem_map.mp hp
    have := h (i + 1) (by simpa using Nat.succ_lt_succ (List.mem_range.mp hi)) (by omega)
    have hcast : ((i + 1 : Nat) : Int) = (i : Int) + 1 := by push_cast; ring
    rw [hcast] at this
    simp [this]

lemma smoothCandidate_some_iff {dx dy : Int} (hu : UnitDir dx dy) (g : Grid)
    (x y : Int) (d : Nat) (hd : 1 ≤ d) (p : Pt) :
    smoothCandidate g x y dx dy d = some p ↔
      p = (x + dx * d, y + dy * d) ∧ specClear g x y dx dy d := by
  constructor
  · intro h
    simp only [smoothCandidate] at h
    split at h
    case isTrue hcond =>
      rw [Bool.and_eq_true, Bool.not_eq_true'] at hcond
      obtain ⟨rfl⟩ : (x + dx * d, y + dy * d) = p := by injection h
      exact ⟨rfl, hcond.1, (lineBlocked_interp hu g x y d hd).mp hcond.2⟩
    case isFalse => exact absurd h (by simp)
  · rintro ⟨rfl, hw, hcl⟩
    simp only [smoothCandidate]
    rw [if_pos]
    rw [Bool.and_eq_true, Bool.not_eq_true']
    exact ⟨hw, (lineBlocked_interp hu g x y d hd).mpr hcl⟩

lemma smoothCandidate_none_iff {dx dy : Int} (hu : UnitDir dx dy) (g : Grid)
    (x y : Int) (d : Nat) (hd : 1 ≤ d) :
    smoothCandidate g x y dx dy d = none ↔ ¬ specClear g x y dx dy d := by
  constructor
  · intro h hcl
    have := (smoothCandidate_some_iff hu g x y d hd (x + dx * d, y + dy * d)).mpr
      ⟨rfl, hcl⟩
    rw [h] at this; exact absurd this (by simp)
  · intro h
    cases hc : smoothCandidate g x y dx dy d with
    | none => rfl
    | some p =>
      exact absurd ((smoothCandidate_some_iff hu g x y d hd p).mp hc).2 h

lemma smoothCandidate_shape (g : Grid) (x y dx dy : Int) (d : Nat) (p : Pt)
    (h : smoothCandidate g x y dx dy d = some p) : p = (x + dx * d, y + dy * d) := by
  simp only [smoothCandidate] at h
  split at h
  · obtain ⟨rfl⟩ : (x + dx * d, y + dy * d) = p := by injection h
    rfl
  · exact absurd h (by simp)

lemma smoothLoop_some_iff {dx dy : Int} (hu : UnitDir dx dy) (g : Grid) (x y : Int) :
    ∀ (m : Nat) (p : Pt), smoothLoop g x y dx dy m = some p ↔
      ∃ d : Nat, 1 ≤ d ∧ d ≤ m ∧ p = (x + dx * d, y + dy * d) ∧
        specClear g x y dx dy d ∧
        ∀ e : Nat, d < e → e ≤ m → ¬ specClear g x y dx dy e := by
  intro m
  induction m with
  | zero =>
    intro p
    simp only [smoothLoop]
    constructor
    · intro h; exact absurd h (by simp)
    · rintro ⟨d, hd1, hd0, -⟩; omega
  | succ n ih =>
    intro p
    simp only [smoothLoop]
    cases hc : smoothCandidate g x y dx dy (n + 1) with
    | some q =>
      obtain ⟨rfl, hclear⟩ :=
        (smoothCandidate_some_iff hu g x y (n + 1) (by omega) q).mp hc
      constructor
      · intro h
        obtain ⟨rfl⟩ : (x + dx * (n + 1 : Nat), y + dy * (n + 1 : Nat)) = p := by
          injection h
        exact ⟨n + 1, by omega, by omega, rfl, hclear, fun e he1 he2 => by omega⟩
      · rintro ⟨d, hd1, hdm, rfl, hcl, hmax⟩
        rcases Nat.lt_or_ge d (n + 1) with hlt | hge
        · exact absurd hclear (hmax (n + 1) hlt (le_refl _))
        · obtain rfl : d = n + 1 := by omega
          rfl
    | none =>
      have hnc := (smoothCandidate_none_iff hu g x y (n + 1) (by omega)).mp hc
      rw [ih p]
      constructor
      · rintro ⟨d, hd1, hdm, rfl, hcl, hmax⟩
        refine ⟨d, hd1, by omega, rfl, hcl, fun e he1 he2 => ?_⟩
        rcases Nat.lt_or_ge e (n + 1) with hlt | hge
        · exact hmax e he1 (by omega)
        · obtain rfl : e = n + 1 := by omega
          exact hnc
      · rintro ⟨d, hd1, hdm, rfl, hcl, hmax⟩
        have hdn : d ≤ n := by
          rcases Nat.lt_or_ge d (n + 1) with hlt | hge
          · omega
          · obtain rfl : d = n + 1 := by omega
            exact absurd hcl hnc
        exact ⟨d, hd1, hdn, rfl, hcl, fun e he1 he2 => hmax e he1 (by omega)⟩

lemma findSmoothJump_some_iff {dx dy : Int} (hu : UnitDir dx dy) (g : Grid)
    (x y : Int) (la : Nat) (hla : 1 ≤ la) (p : Pt) :
    findSmoothJump g la x y dx dy = some p ↔
      ∃ d : Nat, 1 ≤ d ∧ d ≤ la ∧ p = (x + dx * d, y + dy * d) ∧
        specClear g x y dx dy d ∧
        ∀ e : Nat, d < e → e ≤ la → ¬ specClear g x y dx dy e := by
  have hdiag : ¬ (dx ≠ 0 ∧ dy ≠ 0) := by
    rcases hu with h | h | h | h <;> obtain ⟨h1, h2⟩ := Prod.mk.injEq .. ▸ h <;>
      subst h1 <;> subst h2 <;> simp
  rw [findSmoothJump, if_neg hdiag]
  cases hc : smoothCandidate g x y dx dy la with
  | some q =>
    obtain ⟨rfl, hclear⟩ := (smoothCandidate_some_iff hu g x y la hla q).mp hc
    constructor
    · intro h
      obtain ⟨rfl⟩ : (x + dx * (la : Nat), y + dy * (la : Nat)) = p := by injection h
      exact ⟨la, hla, le_refl _, rfl, hclear, fun e he1 he2 => by omega⟩
    · rintro ⟨d, hd1, hdm, rfl, hcl, hmax⟩
      rcases Nat.lt_or_ge d la with hlt | hge
      · exact absurd hclear (hmax la hlt (le_refl _))
      · obtain rfl : d = la := by omega
        rfl
  | none =>
    have hnc := (smoothCandidate_none_iff hu g x y la hla).mp hc
    rw [smoothLoop_some_iff hu g x y (la - 1) p]
    constructor
    · rintro ⟨d, hd1, hdm, rfl, hcl, hmax⟩
      refine ⟨d, hd1, by omega, rfl, hcl, fun e he1 he2 => ?_⟩
      rcases Nat.lt_or_ge e la with hlt | hge
      · exact hmax e he1 (by omega)
      · obtain rfl : e = la := by omega
        exact hnc
    · rintro ⟨d, hd1, hdm, rfl, hcl, hmax⟩
      have hdn : d ≤ la - 1 := by
        rcases Nat.lt_or_ge d la with hlt | hge
        · omega
        · obtain rfl : d = la := by omega
          exact absurd hcl hnc
      exact ⟨d, hd1, hdn, rfl, hcl, fun e he1 he2 => hmax e he1 (by omega)⟩

lemma findSmoothJump_none_iff {dx dy : Int} (hu : UnitDir dx dy) (g : Grid)
    (x y : Int) (la : Nat) (hla : 1 ≤ la) :
    findSmoothJump g la x y dx dy = none ↔
      ∀ d : Nat, 1 ≤ d → d ≤ la → ¬ specClear g x y dx dy d := by
  constructor
  · intro h d hd1 hdla hcl
    have hPd : (fun e => 1 ≤ e ∧ specClear g x y dx dy e) d := ⟨hd1, hcl⟩
    have hgr := @Nat.findGreatest_spec d (fun e => 1 ≤ e ∧ specClear g x y dx dy e)
      _ la hdla hPd
    have hfla := @Nat.findGreatest_le (fun e => 1 ≤ e ∧ specClear g x y dx dy e) _ la
    have hsome := (findSmoothJump_some_iff hu g x y la hla
      (x + dx * (Nat.findGreatest (fun e => 1 ≤ e ∧ specClear g x y dx dy e) la),
       y + dy * (Nat.findGreatest (fun e => 1 ≤ e ∧ specClear g x y dx dy e) la))).mpr
      ⟨Nat.findGreatest (fun e => 1 ≤ e ∧ specClear g x y dx dy e) la,
        hgr.1, hfla, rfl, hgr.2,
        fun e he1 he2 hecl =>
          Nat.findGreatest_is_greatest he1 he2 ⟨by omega, hecl⟩⟩
    rw [h] at hsome; exact absurd hsome (by simp)
  · intro h
    cases hc : findSmoothJump g la x y dx dy with
    | none => rfl
    | some p =>
      obtain ⟨d, hd1, hdla, -, hcl, -⟩ := (findSmoothJump_some_iff hu g x y la hla p).mp hc
      exact absurd hcl (h d hd1 hdla)

lemma smoothLoop_shape (g : Grid) (x y dx dy : Int) :
    ∀ (m : Nat) (p : Pt), smoothLoop g x y dx dy m = some p →
      ∃ d : Nat, p = (x + dx * d, y + dy * d) := by
  intro m
  induction m with
  | zero => intro p h; exact absurd h (by simp [smoothLoop])
  | succ n ih =>
    intro p h
    simp only [smoothLoop] at h
    cases hc : smoothCandidate g x y dx dy (n + 1) with
    | some q =>
      rw [hc] at h
      obtain ⟨rfl⟩ : q = p := by injection h
      exact ⟨n + 1, smoothCandidate_shape g x y dx dy (n + 1) p hc⟩
    | none =>
      rw [hc] at h
      exact ih p h

lemma findSmoothJump_shape (g : Grid) (la : Nat) (x y dx dy : Int) (p : Pt)
    (h : findSmoothJump g la x y dx dy = some p) :
    ∃ d : Nat, p = (x + dx * d, y + dy * d) := by
  rw [findSmoothJump] at h
  split at h
  · exact absurd h (by simp)
  · cases hc : smoothCandidate g x y dx dy la with
    | some q =>
      rw [hc] at h
      obtain ⟨rfl⟩ : q = p := by injection h
      exact ⟨la, smoothCandidate_shape g x y dx dy la p hc⟩
    | none =>
      rw [hc] at h
      exact smoothLoop_shape g x y dx dy (la - 1) p h

lemma jumpAux_zero (g : Grid) (goal : Pt) (mt : Bool) (la : Nat) (x y px py : Int) :
    jumpAux g goal mt la 0 x y px py = none := rfl

lemma jumpAux_succ (g : Grid) (goal : Pt) (mt : Bool) (la : Nat) (n : Nat)
    (x y px py : Int) :
    jumpAux g goal mt la (n + 1) x y px py =
      (if ¬ g.isWalkableAt x y then some none
      else if (x, y) = goal then some (some (x, y))
      else if (x - px) ≠ 0 ∧ (y - py) ≠ 0 then some none
      else if (x - px) ≠ 0 ∧
          ((g.isWalkableAt (x + (x - px)) (y + 1) ∧ ¬ g.isWalkableAt x (y + 1)) ∨
           (g.isWalkableAt (x + (x - px)) (y - 1) ∧ ¬ g.isWalkableAt x (y - 1))) then
        some (some (x, y))
      else if (x - px) = 0 ∧ (y - py) ≠ 0 ∧
          ((g.isWalkableAt (x + 1) (y + (y - py)) ∧ ¬ g.isWalkableAt (x + 1) y) ∨
           (g.isWalkableAt (x - 1) (y + (y - py)) ∧ ¬ g.isWalkableAt (x - 1) y)) then
        some (some (x, y))
      else
        match mt, findSmoothJump g la x y (x - px) (y - py) with
        | true, some p => some (some p)
        | true, none => jumpAux g goal mt la n (x + (x - px)) (y + (y - py)) x y
        | false, _ => jumpAux g goal mt la n (x + (x - px)) (y + (y - py)) x y) := rfl

lemma unit_not_diag {dx dy : Int} (hu : UnitDir dx dy) : ¬ (dx ≠ 0 ∧ dy ≠ 0) := by
  rcases hu with h | h | h | h <;> obtain ⟨h1, h2⟩ := Prod.mk.injEq .. ▸ h <;>
    subst h1 <;> subst h2 <;> simp

lemma unit_mul_ne {dx dy : Int} (hu : UnitDir dx dy) (d : Nat) (hd : 1 ≤ d) :
    ¬ (dx * d = 0 ∧ dy * d = 0) := by
  rcases hu with h | h | h | h <;> obtain ⟨h1, h2⟩ := Prod.mk.injEq .. ▸ h <;>
    subst h1 <;> subst h2 <;> intro hc <;>
    [skip; skip; skip; skip] <;>
    · have := hc.1
      have := hc.2
      push_cast at this ⊢
      omega

lemma jumpAux_step_eq {dx dy : Int} (hu : UnitDir dx dy) (g : Grid) (goal : Pt)
    (mt : Bool) (la : Nat) (fuel : Nat) (x y : Int)
    (hw : g.isWalkableAt x y = true) (hg : (x, y) ≠ goal) :
    jumpAux g goal mt la (fuel + 1) x y (x - dx) (y - dy) =
      (if ForcedAt g x y dx dy then some (some (x, y))
      else
        match mt, findSmoothJump g la x y dx dy with
        | true, some p => some (some p)
        | true, none => jumpAux g goal mt la fuel (x + dx) (y + dy) x y
        | false, _ => jumpAux g goal mt la fuel (x + dx) (y + dy) x y) := by
  rw [jumpAux_succ,
    show x - (x - dx) = dx from by ring, show y - (y - dy) = dy from by ring,
    if_neg (by simp [hw]), if_neg hg, if_neg (unit_not_diag hu)]
  rcases hu with h | h | h | h <;> obtain ⟨h1, h2⟩ := Prod.mk.injEq .. ▸ h <;>
    subst h1 <;> subst h2
  · unfold ForcedAt
    norm_num
  · unfold ForcedAt
    norm_num
  · unfold ForcedAt
    norm_num
  · unfold ForcedAt
    norm_num

lemma jumpAux_horiz_isSome (g : Grid) (goal : Pt) (mt : Bool) (la : Nat)
    (dx : Int) (hdx : dx ≠ 0) (y : Int) :
    ∀ (fuel : Nat) (x : Int), 1 ≤ fuel →
      (g.isWalkableAt x y = true →
        (if 0 < dx then (g.width - x).toNat else (x + 1).toNat) + 1 ≤ fuel) →
      (jumpAux g goal mt la fuel x y (x - dx) y).isSome = true := by
  intro fuel
  induction fuel with
  | zero => intro x h1 h2; exact absurd h1 (by omega)
  | succ n ih =>
    intro x h1 h2
    by_cases hw : g.isWalkableAt x y = true
    · by_cases hgoal : (x, y) = goal
      · rw [jumpAux_succ, if_neg (by simp [hw]), if_pos hgoal]; rfl
      · rw [jumpAux_succ, if_neg (by simp [hw]), if_neg hgoal,
          show x - (x - dx) = dx from by ring, sub_self,
          if_neg (fun c => c.2 rfl)]
        have hb := isWalkableAt_bounds hw
        by_cases hF : dx ≠ 0 ∧
            ((g.isWalkableAt (x + dx) (y + 1) = true ∧
              ¬ g.isWalkableAt x (y + 1) = true) ∨
             (g.isWalkableAt (x + dx) (y - 1) = true ∧
              ¬ g.isWalkableAt x (y - 1) = true))
        · rw [if_pos hF]; rfl
        · rw [if_neg hF, if_neg (fun c => hdx c.1)]
          have hrec : (jumpAux g goal mt la n (x + dx) (y + 0) x y).isSome = true := by
            have h1n : 1 ≤ n := by
              have := h2 hw
              split at this <;> omega
            have h2n : g.isWalkableAt (x + dx) y = true →
                (if 0 < dx then (g.width - (x + dx)).toNat
                 else ((x + dx) + 1).toNat) + 1 ≤ n := by
              intro hw2
              have hb2 := isWalkableAt_bounds hw2
              have := h2 hw
              split at this <;> split <;> omega
            have := ih (x + dx) h1n h2n
            rw [show x + dx - dx = x from by ring] at this
            rw [add_zero]
            exact this
          cases hmt : mt with
          | true =>
            rw [hmt] at hrec
            cases hs : findSmoothJump g la x y dx 0 with
            | some p => dsimp only; rfl
            | none => dsimp only; exact hrec
          | false =>
            rw [hmt] at hrec
            dsimp only; exact hrec
    · rw [jumpAux_succ, if_pos (by simp [hw])]; rfl

lemma jumpAux_vert_isSome (g : Grid) (goal : Pt) (mt : Bool) (la : Nat)
    (dy : Int) (hdy : dy ≠ 0) (x : Int) :
    ∀ (fuel : Nat) (y : Int), 1 ≤ fuel →
      (g.isWalkableAt x y = true →
        (if 0 < dy then (g.height - y).toNat else (y + 1).toNat) + 1 ≤ fuel) →
      (jumpAux g goal mt la fuel x y x (y - dy)).isSome = true := by
  intro fuel
  induction fuel with
  | zero => intro y h1 h2; exact absurd h1 (by omega)
  | succ n ih =>
    intro y h1 h2
    by_cases hw : g.isWalkableAt x y = true
    · by_cases hgoal : (x, y) = goal
      · rw [jumpAux_succ, if_neg (by simp [hw]), if_pos hgoal]; rfl
      · rw [jumpAux_succ, if_neg (by simp [hw]), if_neg hgoal,
          show y - (y - dy) = dy from by ring, sub_self,
          if_neg (fun c => c.1 rfl), if_neg (fun c => c.1 rfl)]
        have hb := isWalkableAt_bounds hw
        by_cases hF : (0 : Int) = 0 ∧ dy ≠ 0 ∧
            ((g.isWalkableAt (x + 1) (y + dy) = true ∧
              ¬ g.isWalkableAt (x + 1) y = true) ∨
             (g.isWalkableAt (x - 1) (y + dy) = true ∧
              ¬ g.isWalkableAt (x - 1) y = true))
        · rw [if_pos hF]; rfl
        · rw [if_neg hF]
          have hrec : (jumpAux g goal mt la n (x + 0) (y + dy) x y).isSome = true := by
            have h1n : 1 ≤ n := by
              have := h2 hw
              split at this <;> omega
            have h2n : g.isWalkableAt x (y + dy) = true →
                (if 0 < dy then (g.height - (y + dy)).toNat
                 else ((y + dy) + 1).toNat) + 1 ≤ n := by
              intro hw2
              have hb2 := isWalkableAt_bounds hw2
              have := h2 hw
              split at this <;> split <;> omega
            have := ih (y + dy) h1n h2n
            rw [show y + dy - dy = y from by ring] at this
            rw [add_zero]
            exact this
          cases hmt : mt with
          | true =>
            rw [hmt] at hrec
            cases hs : findSmoothJump g la x y 0 dy with
            | some p => dsimp only; rfl
            | none => dsimp only; exact hrec
          | false =>
            rw [hmt] at hrec
            dsimp only; exact hrec
    · rw [jumpAux_succ, if_pos (by simp [hw])]; rfl

lemma jumpAux_ray (dx dy : Int) (g : Grid) (goal : Pt) (mt : Bool) (la : Nat) :
    ∀ (fuel : Nat) (x y px py : Int) (r : Pt), x - px = dx → y - py = dy →
      jumpAux g goal mt la fuel x y px py = some (some r) →
      ∃ k : Nat, r = (x + dx * k, y + dy * k) := by
  intro fuel
  induction fuel with
  | zero =>
    intro x y px py r hdx hdy h
    rw [jumpAux_zero] at h
    exact absurd h (by simp)
  | succ n ih =>
    intro x y px py r hdx hdy h
    rw [jumpAux_succ, hdx, hdy] at h
    split at h
    · exact absurd h (by simp)
    · split at h
      · obtain ⟨rfl⟩ : (x, y) = r := by injection h with h'; injection h'
        exact ⟨0, by simp⟩
      · split at h
        · exact absurd h (by simp)
        · split at h
          · obtain ⟨rfl⟩ : (x, y) = r := by injection h with h'; injection h'
            exact ⟨0, by simp⟩
          · split at h
            · obtain ⟨rfl⟩ : (x, y) = r := by injection h with h'; injection h'
              exact ⟨0, by simp⟩
            · cases hmt : mt with
              | true =>
                rw [hmt] at h ih
                cases hs : findSmoothJump g la x y dx dy with
                | some p =>
                  rw [hs] at h
                  dsimp only at h
                  obtain ⟨rfl⟩ : p = r := by injection h with h'; injection h'
                  exact findSmoothJump_shape g la x y dx dy r hs
                | none =>
                  rw [hs] at h
                  dsimp only at h
                  obtain ⟨k, rfl⟩ := ih (x + dx) (y + dy) x y r (by ring) (by ring) h
                  refine ⟨k + 1, ?_⟩
                  have hc : ((k + 1 : Nat) : Int) = (k : Int) + 1 := by push_cast; ring
                  rw [hc, Prod.mk.injEq]
                  exact ⟨by ring, by ring⟩
              | false =>
                rw [hmt] at h ih
                dsimp only at h
                obtain ⟨k, rfl⟩ := ih (x + dx) (y + dy) x y r (by ring) (by ring) h
                refine ⟨k + 1, ?_⟩
                have hc : ((k + 1 : Nat) : Int) = (k : Int) + 1 := by push_cast; ring
                rw [hc, Prod.mk.injEq]
                exact ⟨by ring, by ring⟩

/-- **C9**: on every finite grid (whose out-of-bounds queries return false,
as `Grid.isWalkableAt` guarantees), a call `jump(x, y, originX, originY)`
with `(x, y) ≠ (originX, originY)` terminates: the scan, run with the
`width + height + 1` fuel budget, always reaches a result (an unwalkable
cell, the goal, a forced neighbor, or a look-ahead shortcut) before the
fuel runs out. -/
theorem jump_scan_terminates (g : Grid) (goal : Pt) (mt : Bool) (la : Nat)
    (x y px py : Int) (h : (x, y) ≠ (px, py)) :
    (jumpAux g goal mt la (jumpFuel g) x y px py).isSome = true := by
  by_cases hdx : x - px = 0
  · by_cases hdy : y - py = 0
    · refine absurd ?_ h
      rw [Prod.mk.injEq]
      omega
    · rw [show px = x from by omega]
      obtain ⟨dy, rfl⟩ : ∃ dy, py = y - dy := ⟨y - py, by ring⟩
      have hdy' : dy ≠ 0 := by omega
      apply jumpAux_vert_isSome g goal mt la dy hdy' x (jumpFuel g) y
      · rw [jumpFuel]; omega
      · intro hw
        have hb := isWalkableAt_bounds hw
        rw [jumpFuel]
        split <;> omega
  · by_cases hdy : y - py = 0
    · rw [show py = y from by omega]
      obtain ⟨dx, rfl⟩ : ∃ dx, px = x - dx := ⟨x - px, by ring⟩
      have hdx' : dx ≠ 0 := by omega
      apply jumpAux_horiz_isSome g goal mt la dx hdx' y (jumpFuel g) x
      · rw [jumpFuel]; omega
      · intro hw
        have hb := isWalkableAt_bounds hw
        rw [jumpFuel]
        split <;> omega
    · rw [show jumpFuel g = (g.width + g.height) + 1 from rfl, jumpAux_succ]
      by_cases hw : g.isWalkableAt x y = true
      · by_cases hgoal : (x, y) = goal
        · rw [if_neg (by simp [hw]), if_pos hgoal]; rfl
        · rw [if_neg (by simp [hw]), if_neg hgoal, if_pos ⟨hdx, hdy⟩]; rfl
      · rw [if_pos (by simp [hw])]; rfl

theorem jump_scan_terminates_witness :
    ((1 : Int), (0 : Int)) ≠ ((0 : Int), (0 : Int)) ∧
      (jumpAux (openGrid 2 2) (1, 1) true 3 (jumpFuel (openGrid 2 2)) 1 0 0 0).isSome
        = true :=
  ⟨by decide, jump_scan_terminates (openGrid 2 2) (1, 1) true 3 1 0 0 0 (by decide)⟩

/-- **C2**: for a `jump` scan step at `(x, y)` arriving with unit orthogonal
direction `(dx, dy)` (origin `(x−dx, y−dy)`): an unwalkable cell yields
none; otherwise the goal cell is returned at once; otherwise the scan
returns `(x, y)` exactly when the forced-neighbor condition holds there
(for horizontal travel: `(x+dx, y+1)` walkable while `(x, y+1)` is not, or
`(x+dx, y−1)` walkable while `(x, y−1)` is not; axes swapped for vertical);
and otherwise it continues one cell further in the same direction, after
the optional look-ahead shortcut when turn minimization is enabled. -/
theorem jump_scan_step_rule (g : Grid) (goal : Pt) (mt : Bool) (la : Nat)
    (fuel : Nat) (x y dx dy : Int) (hu : UnitDir dx dy) (hla : 1 ≤ la) :
    (g.isWalkableAt x y = false →
      jumpAux g goal mt la (fuel + 1) x y (x - dx) (y - dy) = some none) ∧
    (g.isWalkableAt x y = true → (x, y) = goal →
      jumpAux g goal mt la (fuel + 1) x y (x - dx) (y - dy) = some (some (x, y))) ∧
    (g.isWalkableAt x y = true → (x, y) ≠ goal →
      ((jumpAux g goal mt la (fuel + 1) x y (x - dx) (y - dy) = some (some (x, y))) ↔
        ForcedAt g x y dx dy) ∧
      (¬ ForcedAt g x y dx dy →
        jumpAux g goal mt la (fuel + 1) x y (x - dx) (y - dy) =
          match mt, findSmoothJump g la x y dx dy with
          | true, some p => some (some p)
          | true, none => jumpAux g goal mt la fuel (x + dx) (y + dy) x y
          | false, _ => jumpAux g goal mt la fuel (x + dx) (y + dy) x y)) := by
  refine ⟨?_, ?_, ?_⟩
  · intro hw
    rw [jumpAux_succ, if_pos (by simp [hw])]
  · intro hw hg
    rw [jumpAux_succ, if_neg (by simp [hw]), if_pos hg]
  · intro hw hg
    constructor
    · constructor
      · intro h
        by_contra hF
        rw [jumpAux_step_eq hu g goal mt la fuel x y hw hg, if_neg hF] at h
        cases hmt : mt with
        | true =>
          rw [hmt] at h
          cases hs : findSmoothJump g la x y dx dy with
          | some p =>
            rw [hs] at h
            dsimp only at h
            obtain ⟨rfl⟩ : p = (x, y) := by injection h with h'; injection h'
            obtain ⟨d, hd1, -, hpd, -, -⟩ :=
              (findSmoothJump_some_iff hu g x y la hla (x, y)).mp hs
            rw [Prod.mk.injEq] at hpd
            refine unit_mul_ne hu d hd1 ⟨?_, ?_⟩
            · have := hpd.1; linarith
            · have := hpd.2; linarith
          | none =>
            rw [hs] at h
            dsimp only at h
            obtain ⟨k, hk⟩ :=
              jumpAux_ray dx dy g goal true la fuel (x + dx) (y + dy) x y
                (x, y) (by ring) (by ring) h
            rw [Prod.mk.injEq] at hk
            refine unit_mul_ne hu (k + 1) (by omega) ⟨?_, ?_⟩
            · have h1 := hk.1
              have hc : ((k + 1 : Nat) : Int) = (k : Int) + 1 := by push_cast; ring
              rw [hc]
              linarith [h1]
            · have h2 := hk.2
              have hc : ((k + 1 : Nat) : Int) = (k : Int) + 1 := by push_cast; ring
              rw [hc]
              linarith [h2]
        | false =>
          rw [hmt] at h
          dsimp only at h
          obtain ⟨k, hk⟩ :=
            jumpAux_ray dx dy g goal false la fuel (x + dx) (y + dy) x y
              (x, y) (by ring) (by ring) h
          rw [Prod.mk.injEq] at hk
          refine unit_mul_ne hu (k + 1) (by omega) ⟨?_, ?_⟩
          · have h1 := hk.1
            have hc : ((k + 1 : Nat) : Int) = (k : Int) + 1 := by push_cast; ring
            rw [hc]
            linarith [h1]
          · have h2 := hk.2
            have hc : ((k + 1 : Nat) : Int) = (k : Int) + 1 := by push_cast; ring
            rw [hc]
            linarith [h2]
      · intro hF
        rw [jumpAux_step_eq hu g goal mt la fuel x y hw hg, if_pos hF]
    · intro hF
      rw [jumpAux_step_eq hu g goal mt la fuel x y hw hg, if_neg hF]

theorem jump_scan_step_rule_witness :
    (openGrid 2 2).isWalkableAt (-1) 0 = false ∧
      jumpAux (openGrid 2 2) (1, 1) true 3 (0 + 1) (-1) 0 (-1 - 1) (0 - 0) = some none :=
  ⟨by decide,
    (jump_scan_step_rule (openGrid 2 2) (1, 1) true 3 0 (-1) 0 1 0
      (Or.inl rfl) (by decide)).1 (by decide)⟩

/-- **C7** (counterexample): calling `jump(1, 1, 0, 0)` — a diagonal
direction, both components of `(x−originX, y−originY)` nonzero — on an open
2×2 grid whose goal is `(1, 1)` returns `(1, 1)`, not none: the goal test
precedes the defensive diagonal rejection in `_jump`. -/
theorem jump_diagonal_counterexample :
    ((1 : Int) - 0 ≠ 0) ∧ ((1 : Int) - 0 ≠ 0) ∧
      jump (openGrid 2 2) (1, 1) true 3 1 1 0 0 = some (1, 1) := by decide

/-- **C7** (amended): for every call `jump(x, y, originX, originY)` whose
direction has both components nonzero, the result is none — except that the
walkability check and the goal test run first, so a walkable goal cell is
returned even on a diagonal approach; the rejection is immediate only for
non-goal cells. -/
theorem jump_diagonal_rule (g : Grid) (goal : Pt) (mt : Bool) (la : Nat)
    (x y px py : Int) (hdx : x - px ≠ 0) (hdy : y - py ≠ 0) :
    jump g goal mt la x y px py =
      if g.isWalkableAt x y = true ∧ (x, y) = goal then some (x, y) else none := by
  rw [jump, show jumpFuel g = (g.width + g.height) + 1 from rfl, jumpAux_succ]
  by_cases hw : g.isWalkableAt x y = true
  · by_cases hgoal : (x, y) = goal
    · rw [if_neg (by simp [hw]), if_pos hgoal, if_pos ⟨hw, hgoal⟩]; rfl
    · rw [if_neg (by simp [hw]), if_neg hgoal, if_pos ⟨hdx, hdy⟩,
        if_neg (fun c => hgoal c.2)]
      rfl
  · rw [if_pos (by simp [hw]), if_neg (fun c => hw c.1)]; rfl

theorem jump_diagonal_rule_witness :
    jump (openGrid 2 2) (0, 1) true 3 1 1 0 0 =
      (if (openGrid 2 2).isWalkableAt 1 1 = true ∧
          ((1 : Int), (1 : Int)) = ((0 : Int), (1 : Int)) then
        some (1, 1) else none) :=
  jump_diagonal_rule (openGrid 2 2) (0, 1) true 3 1 1 0 0 (by decide) (by decide)

/-- **C10**: with turn minimization on and `lookAheadDistance = 3 ≥ 2`, on
an open 5×1 corridor with goal `(3, 0)`, the scan `jump(1, 0, 0, 0)`
returns `(4, 0)`: a point strictly beyond the goal, although the walkable
goal cell lies strictly between the scanned cell `(1, 0)` and the returned
point — the look-ahead shortcut checks only walkability of the cells it
skips, never goal identity. -/
theorem jump_skips_goal :
    jump (openGrid 5 1) (3, 0) true 3 1 0 0 0 = some (4, 0) ∧
      (openGrid 5 1).isWalkableAt 3 0 = true ∧
      ((1 : Int) < 3 ∧ (3 : Int) < 4) ∧ 2 ≤ 3 := by decide

/-- **C8** (counterexample): on an open 4×1 corridor from `(0, 0)` to
`(3, 0)`, the search with `minimizeTurns` on and `lookAheadDistance = 1`
returns `[(0,0), (2,0), (3,0)]` while the search with `minimizeTurns` off
returns `[(0,0), (3,0)]` — the outputs differ, so look-ahead distance 1
does not make turn minimization a no-op. -/
theorem lookahead_one_counterexample :
    (findPath (openGrid 4 1) manhattan true (1/2) 1 (0, 0) (3, 0)).1 =
        [(0, 0), (2, 0), (3, 0)] ∧
      (findPath (openGrid 4 1) manhattan false (1/2) 1 (0, 0) (3, 0)).1 =
        [(0, 0), (3, 0)] ∧
      (findPath (openGrid 4 1) manhattan true (1/2) 1 (0, 0) (3, 0)).1 ≠
        (findPath (openGrid 4 1) manhattan false (1/2) 1 (0, 0) (3, 0)).1 := by
  decide

/-- **C8** (amended): `lookAheadDistance = 1` only degenerates the
look-ahead itself — `_findSmoothJump` then returns the single adjacent cell
`(x+dx, y+dy)` exactly when it is walkable — but the search output is not
identical to `minimizeTurns = false` in general, because the degenerate
shortcut still cuts every jump scan short after one step. -/
theorem lookahead_one_degenerates (g : Grid) (x y dx dy : Int) (hu : UnitDir dx dy) :
    findSmoothJump g 1 x y dx dy =
      if g.isWalkableAt (x + dx) (y + dy) = true then some (x + dx, y + dy)
      else none := by
  have hlb : lineBlocked g
      (interpolate x y (x + dx * ((1 : Nat) : Int)) (y + dy * ((1 : Nat) : Int))) =
      false :=
    (lineBlocked_interp hu g x y 1 (le_refl 1)).mpr (fun j hj hj1 => by omega)
  simp only [Nat.cast_one, mul_one] at hlb
  have hc : smoothCandidate g x y dx dy 1 =
      if g.isWalkableAt (x + dx) (y + dy) = true then some (x + dx, y + dy)
      else none := by
    simp only [smoothCandidate, Nat.cast_one, mul_one, hlb, Bool.not_false,
      Bool.and_true]
  rw [findSmoothJump, if_neg (unit_not_diag hu), hc]
  by_cases hw : g.isWalkableAt (x + dx) (y + dy) = true
  · rw [if_pos hw]
  · rw [if_neg hw]
    rfl

theorem lookahead_one_degenerates_witness :
    findSmoothJump (openGrid 4 1) 1 0 0 1 0 =
      (if (openGrid 4 1).isWalkableAt (0 + 1) (0 + 0) = true then
        some ((0 : Int) + 1, (0 : Int) + 0) else none) :=
  lookahead_one_degenerates (openGrid 4 1) 0 0 1 0 (Or.inl rfl)

/-- **C1** (code evaluation at the failing input): on the open 6×2 grid,
searching from `(0, 0)` to `(5, 1)` with the default configuration
(`minimizeTurns` on, `lookAheadDistance = 3`, `turnPenalty = 0.5`, Manhattan
heuristic) assigns the goal node `(5, 1)` the parent `(4, 0)` and returns
the path `[(0,0), (4,0), (5,1)]`: the final parent link shares neither a
row nor a column with its node, so no axis-aligned fully-walkable straight
run joins them, contradicting the claimed invariant. -/
theorem parent_link_not_straight :
    (findPath (openGrid 6 2) manhattan true (1/2) 3 (0, 0) (5, 1)).1 =
        [(0, 0), (4, 0), (5, 1)] ∧
      ((findPath (openGrid 6 2) manhattan true (1/2) 3 (0, 0) (5, 1)).2.nodes
        (5, 1)).parent = some (4, 0) ∧
      (4 : Int) ≠ 5 ∧ (0 : Int) ≠ 1 := by decide

lemma relaxNg_eq_spec (g : Grid) (mt : Bool) (tp : ℚ) (nodeRec : NodeRec)
    (node jp : Pt) :
    relaxNg g mt tp nodeRec node jp =
      nodeRec.g + (manhattanDist jp node : ℚ) * g.weightAt jp.1 jp.2 +
        (if turnBetween mt nodeRec.parent node jp then tp else 0) := by
  cases hmt : mt with
  | true =>
    cases hp : nodeRec.parent with
    | none =>
      simp only [relaxNg, hp, manhattanDist, turnBetween]
      rw [if_neg (fun h => h)]
      ring
    | some pp =>
      simp only [relaxNg, hp, manhattanDist, turnBetween]
      by_cases hs : (node.1 - pp.1).sign ≠ (jp.1 - node.1).sign ∨
          (node.2 - pp.2).sign ≠ (jp.2 - node.2).sign
      · rw [if_pos hs, if_pos ⟨trivial, hs⟩]
      · rw [if_neg hs, if_neg (fun c => hs c.2)]
        ring
  | false =>
    cases hp : nodeRec.parent with
    | none =>
      simp only [relaxNg, hp, manhattanDist, turnBetween]
      rw [if_neg (fun h => h)]
      ring
    | some pp =>
      simp only [relaxNg, hp, manhattanDist, turnBetween]
      rw [if_neg (fun c => by exact absurd c.1 (by simp))]
      ring

lemma relaxJump_updates (g : Grid) (heur : Nat → Nat → ℚ) (mt : Bool) (tp : ℚ)
    (goal node jp : Pt) (st : SState)
    (hclosed : (st.nodes jp).closed = false)
    (hup : (st.nodes jp).opened = false ∨
      relaxNg g mt tp (st.nodes node) node jp < (st.nodes jp).g) :
    (relaxJump g heur mt tp goal node st jp).nodes jp =
      { g := relaxNg g mt tp (st.nodes node) node jp,
        h := if (st.nodes jp).h = 0 then
            heur (jp.1 - goal.1).natAbs (jp.2 - goal.2).natAbs
          else (st.nodes jp).h,
        f := relaxNg g mt tp (st.nodes node) node jp +
          (if (st.nodes jp).h = 0 then
            heur (jp.1 - goal.1).natAbs (jp.2 - goal.2).natAbs
          else (st.nodes jp).h),
        opened := true, closed := false, parent := some node } ∧
    (∀ q, q ≠ jp → (relaxJump g heur mt tp goal node st jp).nodes q = st.nodes q) ∧
    ((st.nodes jp).opened = false →
      (relaxJump g heur mt tp goal node st jp).openList = st.openList ++ [jp] ∧
      (relaxJump g heur mt tp goal node st jp).events =
        st.events ++ [OpenEvent.push jp]) ∧
    ((st.nodes jp).opened = true →
      (relaxJump g heur mt tp goal node st jp).openList = st.openList ∧
      (relaxJump g heur mt tp goal node st jp).events =
        st.events ++ [OpenEvent.update jp]) := by
  simp only [relaxJump]
  rw [if_neg (by simp [hclosed]), if_pos hup]
  by_cases ho : (st.nodes jp).opened = false
  · rw [if_pos ho]
    refine ⟨Function.update_same .., fun q hq => Function.update_noteq hq .. , ?_, ?_⟩
    · intro _; exact ⟨rfl, rfl⟩
    · intro hc; rw [hc] at ho; exact absurd ho (by simp)
  · rw [if_neg ho]
    refine ⟨Function.update_same .., fun q hq => Function.update_noteq hq .., ?_, ?_⟩
    · intro hc; exact absurd hc ho
    · intro _; exact ⟨rfl, rfl⟩

lemma relaxJump_closed_noop (g : Grid) (heur : Nat → Nat → ℚ) (mt : Bool) (tp : ℚ)
    (goal node jp : Pt) (st : SState) (hclosed : (st.nodes jp).closed = true) :
    relaxJump g heur mt tp goal node st jp = st := by
  simp only [relaxJump]
  rw [if_pos hclosed]

lemma relaxJump_worse_noop (g : Grid) (heur : Nat → Nat → ℚ) (mt : Bool) (tp : ℚ)
    (goal node jp : Pt) (st : SState) (hclosed : (st.nodes jp).closed = false)
    (hop : (st.nodes jp).opened = true)
    (hng : ¬ relaxNg g mt tp (st.nodes node) node jp < (st.nodes jp).g) :
    relaxJump g heur mt tp goal node st jp = st := by
  simp only [relaxJump]
  rw [if_neg (by simp [hclosed]), if_neg]
  rintro (h | h)
  · rw [hop] at h; exact absurd h (by simp)
  · exact hng h

lemma relaxJump_mono (g : Grid) (heur : Nat → Nat → ℚ) (mt : Bool) (tp : ℚ)
    (goal node jp : Pt) (st : SState) (p : Pt)
    (hop : (st.nodes p).opened = true) :
    ((relaxJump g heur mt tp goal node st jp).nodes p).g ≤ (st.nodes p).g ∧
    ((relaxJump g heur mt tp goal node st jp).nodes p).opened = true := by
  by_cases hclosed : (st.nodes jp).closed = true
  · rw [relaxJump_closed_noop g heur mt tp goal node jp st hclosed]
    exact ⟨le_refl _, hop⟩
  · have hclosed' : (st.nodes jp).closed = false := by
      revert hclosed; cases (st.nodes jp).closed <;> simp
    by_cases hup : (st.nodes jp).opened = false ∨
        relaxNg g mt tp (st.nodes node) node jp < (st.nodes jp).g
    · obtain ⟨hrec, hother, -, -⟩ :=
        relaxJump_updates g heur mt tp goal node jp st hclosed' hup
      by_cases hpj : p = jp
      · subst hpj
        rw [hrec]
        rcases hup with h | h
        · rw [hop] at h; exact absurd h (by simp)
        · exact ⟨le_of_lt h, rfl⟩
      · rw [hother p hpj]
        exact ⟨le_refl _, hop⟩
    · have hop' : (st.nodes jp).opened = true := by
        rcases not_or.mp hup with ⟨h1, -⟩
        revert h1; cases (st.nodes jp).opened <;> simp
      rw [relaxJump_worse_noop g heur mt tp goal node jp st hclosed' hop'
        (not_or.mp hup).2]
      exact ⟨le_refl _, hop⟩

lemma identifySuccessors_g_mono (g : Grid) (heur : Nat → Nat → ℚ) (mt : Bool)
    (tp : ℚ) (la : Nat) (goal : Pt) (st : SState) (node : Pt) (p : Pt)
    (hop : (st.nodes p).opened = true) :
    ((identifySuccessors g heur mt tp la goal st node).nodes p).g ≤
      (st.nodes p).g := by
  simp only [identifySuccessors]
  generalize findNeighbors g goal mt la node.1 node.2 ((st.nodes node).parent) = l
  induction l generalizing st with
  | nil => exact le_refl _
  | cons nb t ih =>
    simp only [List.foldl_cons]
    have hstep :
        ((match jump g goal mt la nb.1 nb.2 node.1 node.2 with
          | some jp => relaxJump g heur mt tp goal node st jp
          | none => st).nodes p).g ≤ (st.nodes p).g ∧
        ((match jump g goal mt la nb.1 nb.2 node.1 node.2 with
          | some jp => relaxJump g heur mt tp goal node st jp
          | none => st).nodes p).opened = true := by
      cases jump g goal mt la nb.1 nb.2 node.1 node.2 with
      | some jp => exact relaxJump_mono g heur mt tp goal node jp st p hop
      | none => exact ⟨le_refl _, hop⟩
    exact le_trans (ih _ hstep.2) hstep.1

/-- **C3**: for every cell `(x, y)`, unit orthogonal direction `(dx, dy)`,
and configured `lookAheadDistance` `la ≥ 1`: `_findSmoothJump` returns
`(x+dx·d, y+dy·d)` exactly for the largest `d` in `[1, la]` whose endpoint
is walkable with every strictly-intermediate cell of the straight line
walkable; it returns none when no such `d` exists; and any returned point
lies on the ray from `(x, y)` in direction `(dx, dy)` — it never turns. -/
theorem smoothJump_rule (g : Grid) (la : Nat) (x y dx dy : Int)
    (hu : UnitDir dx dy) (hla : 1 ≤ la) :
    (∀ p : Pt, findSmoothJump g la x y dx dy = some p ↔
      ∃ d : Nat, 1 ≤ d ∧ d ≤ la ∧ p = (x + dx * d, y + dy * d) ∧
        specClear g x y dx dy d ∧
        ∀ e : Nat, d < e → e ≤ la → ¬ specClear g x y dx dy e) ∧
    (findSmoothJump g la x y dx dy = none ↔
      ∀ d : Nat, 1 ≤ d → d ≤ la → ¬ specClear g x y dx dy d) :=
  ⟨fun p => findSmoothJump_some_iff hu g x y la hla p,
   findSmoothJump_none_iff hu g x y la hla⟩

theorem smoothJump_rule_witness :
    findSmoothJump (openGrid 5 1) 3 0 0 1 0 = some (3, 0) :=
  ((smoothJump_rule (openGrid 5 1) 3 0 0 1 0 (Or.inl rfl) (by decide)).1 (3, 0)).mpr
    ⟨3, by decide, by decide, by decide, by decide,
      fun e he1 he2 => absurd he2 (by omega)⟩

/-- **C4**: for a node `(x, y)` with a parent and unit travel direction
derived from it, `_findNeighbors` yields exactly the straight-ahead cell
and the two cells offset one unit perpendicular to travel in the direction
of travel (each exactly when walkable), followed — when turn minimization
is enabled — by the two cells perpendicular to the node itself, each
exactly when it is walkable and jumping from it with the current node as
origin yields a jump point.  The first conjunct covers horizontal travel,
the second vertical travel. -/
theorem findNeighbors_rule (g : Grid) (goal : Pt) (mt : Bool) (la : Nat)
    (x y px py : Int) :
    (py = y → px ≠ x →
      findNeighbors g goal mt la x y (some (px, py)) =
        ((if g.isWalkableAt (x + (x - px).sign) y then
            [(x + (x - px).sign, y)] else []) ++
         (if g.isWalkableAt (x + (x - px).sign) (y + 1) then
            [(x + (x - px).sign, y + 1)] else []) ++
         (if g.isWalkableAt (x + (x - px).sign) (y - 1) then
            [(x + (x - px).sign, y - 1)] else [])) ++
        (if mt then
          (if g.isWalkableAt x (y + 1) ∧ (jump g goal mt la x (y + 1) x y).isSome then
            [(x, y + 1)] else []) ++
          (if g.isWalkableAt x (y - 1) ∧ (jump g goal mt la x (y - 1) x y).isSome then
            [(x, y - 1)] else [])
        else [])) ∧
    (px = x → py ≠ y →
      findNeighbors g goal mt la x y (some (px, py)) =
        ((if g.isWalkableAt x (y + (y - py).sign) then
            [(x, y + (y - py).sign)] else []) ++
         (if g.isWalkableAt (x + 1) (y + (y - py).sign) then
            [(x + 1, y + (y - py).sign)] else []) ++
         (if g.isWalkableAt (x - 1) (y + (y - py).sign) then
            [(x - 1, y + (y - py).sign)] else [])) ++
        (if mt then
          (if g.isWalkableAt (x + 1) y ∧ (jump g goal mt la (x + 1) y x y).isSome then
            [(x + 1, y)] else []) ++
          (if g.isWalkableAt (x - 1) y ∧ (jump g goal mt la (x - 1) y x y).isSome then
            [(x - 1, y)] else [])
        else [])) := by
  constructor
  · intro hpy hpx
    subst hpy
    have hdxs : (x - px).sign ≠ 0 := fun h => hpx (by
      have := Int.sign_eq_zero_iff_zero.mp h
      omega)
    simp only [findNeighbors, findSmoothNeighbors, jsUnit_eq_sign, sub_self,
      Int.sign_zero]
    rw [if_pos hdxs, if_pos hdxs]
    simp only [Bool.and_eq_true]
  · intro hpx hpy
    subst hpx
    have hdys : (y - py).sign ≠ 0 := fun h => hpy (by
      have := Int.sign_eq_zero_iff_zero.mp h
      omega)
    simp only [findNeighbors, findSmoothNeighbors, jsUnit_eq_sign, sub_self,
      Int.sign_zero]
    rw [if_neg (show ¬ ((0 : Int) ≠ 0) from fun h => h rfl), if_pos hdys,
      if_neg (show ¬ ((0 : Int) ≠ 0) from fun h => h rfl), if_pos hdys]
    simp only [Bool.and_eq_true]

theorem findNeighbors_rule_witness :
    findNeighbors (openGrid 4 1) (3, 0) true 1 2 0 (some (0, 0)) = [(3, 0)] :=
  ((findNeighbors_rule (openGrid 4 1) (3, 0) true 1 2 0 0 0).1 rfl (by decide)).trans
    (by decide)

/-- **C5**: when `_identifySuccessors` relaxes a non-closed jump point that
is unopened or improved, the `g` it records equals `node.g` plus the
Manhattan distance `|jx−x| + |jy−y|` times the jump point's terrain weight,
plus the fixed `turnPenalty` exactly when turn minimization is enabled, the
node has a parent, and the per-axis signs of the previous edge's direction
differ from the new edge's on either axis; the recorded `h` never includes
the penalty, and `f = g + h`. -/
theorem relax_cost_model (g : Grid) (heur : Nat → Nat → ℚ) (mt : Bool) (tp : ℚ)
    (goal node jp : Pt) (st : SState)
    (hclosed : (st.nodes jp).closed = false)
    (hup : (st.nodes jp).opened = false ∨
      relaxNg g mt tp (st.nodes node) node jp < (st.nodes jp).g) :
    (turnBetween mt (st.nodes node).parent node jp →
      ((relaxJump g heur mt tp goal node st jp).nodes jp).g =
        (st.nodes node).g + (manhattanDist jp node : ℚ) * g.weightAt jp.1 jp.2 + tp) ∧
    (¬ turnBetween mt (st.nodes node).parent node jp →
      ((relaxJump g heur mt tp goal node st jp).nodes jp).g =
        (st.nodes node).g + (manhattanDist jp node : ℚ) * g.weightAt jp.1 jp.2) ∧
    ((relaxJump g heur mt tp goal node st jp).nodes jp).h =
      (if (st.nodes jp).h = 0 then
        heur (jp.1 - goal.1).natAbs (jp.2 - goal.2).natAbs
      else (st.nodes jp).h) ∧
    ((relaxJump g heur mt tp goal node st jp).nodes jp).f =
      ((relaxJump g heur mt tp goal node st jp).nodes jp).g +
        ((relaxJump g heur mt tp goal node st jp).nodes jp).h := by
  obtain ⟨hrec, -, -, -⟩ :=
    relaxJump_updates g heur mt tp goal node jp st hclosed hup
  rw [hrec]
  refine ⟨?_, ?_, rfl, rfl⟩
  · intro ht
    show relaxNg g mt tp (st.nodes node) node jp = _
    rw [relaxNg_eq_spec, if_pos ht]
  · intro ht
    show relaxNg g mt tp (st.nodes node) node jp = _
    rw [relaxNg_eq_spec, if_neg ht]
    ring

theorem relax_cost_model_witness :
    ((relaxJump (openGrid 4 1) manhattan true (1/2) (3, 0) (0, 0) stW (2, 0)).nodes
      (2, 0)).g =
      (stW.nodes (0, 0)).g +
        (manhattanDist (2, 0) (0, 0) : ℚ) * (openGrid 4 1).weightAt 2 0 :=
  (relax_cost_model (openGrid 4 1) manhattan true (1/2) (3, 0) (0, 0) (2, 0) stW
    (by decide) (Or.inl (by decide))).2.1 (fun h => h)

/-- **C6**: during `_identifySuccessors`, a closed jump point is skipped; a
non-closed one has its `g/h/f/parent` updated exactly when it is unopened
or the newly computed `g` is strictly smaller than its recorded `g`; upon
update it is marked opened and pushed to the open list if it was unopened,
or the open list is notified of the priority change if already opened; no
other node record changes; and the `g` of an already-opened node never
increases across the whole expansion. -/
theorem relax_update_discipline (g : Grid) (heur : Nat → Nat → ℚ) (mt : Bool)
    (tp : ℚ) (la : Nat) (goal node jp : Pt) (st : SState) :
    ((st.nodes jp).closed = true →
      relaxJump g heur mt tp goal node st jp = st) ∧
    ((st.nodes jp).closed = false → (st.nodes jp).opened = true →
      ¬ relaxNg g mt tp (st.nodes node) node jp < (st.nodes jp).g →
      relaxJump g heur mt tp goal node st jp = st) ∧
    ((st.nodes jp).closed = false →
      ((st.nodes jp).opened = false ∨
        relaxNg g mt tp (st.nodes node) node jp < (st.nodes jp).g) →
      (((relaxJump g heur mt tp goal node st jp).nodes jp).g =
          relaxNg g mt tp (st.nodes node) node jp ∧
        ((relaxJump g heur mt tp goal node st jp).nodes jp).f =
          ((relaxJump g heur mt tp goal node st jp).nodes jp).g +
            ((relaxJump g heur mt tp goal node st jp).nodes jp).h ∧
        ((relaxJump g heur mt tp goal node st jp).nodes jp).parent = some node ∧
        ((relaxJump g heur mt tp goal node st jp).nodes jp).opened = true ∧
        (∀ q, q ≠ jp →
          (relaxJump g heur mt tp goal node st jp).nodes q = st.nodes q) ∧
        ((st.nodes jp).opened = false →
          (relaxJump g heur mt tp goal node st jp).openList = st.openList ++ [jp] ∧
          (relaxJump g heur mt tp goal node st jp).events =
            st.events ++ [OpenEvent.push jp]) ∧
        ((st.nodes jp).opened = true →
          (relaxJump g heur mt tp goal node st jp).openList = st.openList ∧
          (relaxJump g heur mt tp goal node st jp).events =
            st.events ++ [OpenEvent.update jp]))) ∧
    (∀ p, (st.nodes p).opened = true →
      ((identifySuccessors g heur mt tp la goal st node).nodes p).g ≤
        (st.nodes p).g) := by
  refine ⟨relaxJump_closed_noop g heur mt tp goal node jp st,
    relaxJump_worse_noop g heur mt tp goal node jp st, ?_,
    identifySuccessors_g_mono g heur mt tp la goal st node⟩
  intro hclosed hup
  obtain ⟨hrec, hother, hpush, hnotify⟩ :=
    relaxJump_updates g heur mt tp goal node jp st hclosed hup
  rw [hrec]
  exact ⟨rfl, rfl, rfl, rfl, hother, hpush, hnotify⟩

theorem relax_update_discipline_witness :
    ((relaxJump (openGrid 4 1) manhattan true (1/2) (3, 0) (0, 0) stW (2, 0)).nodes
        (2, 0)).parent = some (0, 0) ∧
      (relaxJump (openGrid 4 1) manhattan true (1/2) (3, 0) (0, 0) stW
        (2, 0)).openList = stW.openList ++ [(2, 0)] ∧
      (relaxJump (openGrid 4 1) manhattan true (1/2) (3, 0) (0, 0) stW
        (2, 0)).events = stW.events ++ [OpenEvent.push (2, 0)] := by
  obtain ⟨-, -, hp, ho, -, hpush, -⟩ :=
    (relax_update_discipline (openGrid 4 1) manhattan true (1/2) 1 (3, 0) (0, 0)
      (2, 0) stW).2.2.1 (by decide) (Or.inl (by decide))
  obtain ⟨h1, h2⟩ := hpush (by decide)
  exact ⟨hp, h1, h2⟩

end JPF
